import Mathlib

/-!
Shallow embedding of `src/baca2PackageManager/judge_manager.py` (BaCa2 package
manager, decision-graph engine) and verification of the frozen claims about it.

Modelling conventions:
* Python node objects are modelled by the structure `JudgeNode`: `name` is the
  `_id` string, `isEnd` records `isinstance(node, EndNode)`, `meaning` is the
  `EndNode.meaning` attribute (`none` for plain nodes), and `iid` stands for the
  object address, so Lean structural equality `=` models Python `is`, while
  `pyEqb` models Python `==` (which `JudgeNodeBase.__eq__` defines by name only).
* Python dicts are modelled by association lists in insertion order; lookup,
  membership, assignment and deletion compare keys with the `__eq__` of the key
  type, exactly as a dict does (assignment keeps the originally stored key).
* Methods that can raise are total functions into `Except PyError _`; a raise
  happens before any mutation in the source, so the error cases carry no state.
* The `visit_matrix` list of lists mutated in place by `_floyd_warshall` is
  modelled as a `List (List Bool)` updated cell by cell; the three nested
  `for` loops are folds over `List.range`.
-/

set_option maxRecDepth 40000

deriving instance DecidableEq for Except

namespace BaCa2

/-- `JudgeVerdict` enum: OK = 0, FAIL = 1, INCONCLUSIVE = 2. -/
inductive JudgeVerdict where
  | OK
  | FAIL
  | INCONCLUSIVE
deriving DecidableEq

/-- A Python judge-node object: `name` is the `_id`, `isEnd` tells whether the
object is an `EndNode` instance, `meaning` is the end-node verdict, and `iid`
models the object address (so `=` models `is`). -/
structure JudgeNode where
  name : String
  isEnd : Bool
  meaning : Option JudgeVerdict
  iid : Nat
deriving DecidableEq

/-- `JudgeNodeBase.__eq__`: two nodes compare equal iff their names are equal. -/
def pyEqb (a b : JudgeNode) : Bool := a.name == b.name

/-- Python `is` between node objects (object identity). -/
def idEqb (a b : JudgeNode) : Bool := decide (a = b)

/-- The exceptions raised by `judge_manager.py`. -/
inductive PyError where
  | keyError
  | judgeNodeError
  | endNodeError
  | resourceWarning
deriving DecidableEq

/-- Dict lookup `d[k]` / `d.get(k)`: first entry whose key compares `eqb`-equal. -/
def dictGet? {K V : Type} (eqb : K → K → Bool) : List (K × V) → K → Option V
  | [], _ => none
  | p :: ps, k => if eqb p.1 k then some p.2 else dictGet? eqb ps k

/-- Dict membership `k in d`. -/
def dictContains {K V : Type} (eqb : K → K → Bool) (l : List (K × V)) (k : K) : Bool :=
  (dictGet? eqb l k).isSome

/-- Dict assignment `d[k] = v`: overwrite the value of the matching entry
(keeping the stored key object) or append a new entry. -/
def dictSet {K V : Type} (eqb : K → K → Bool) : List (K × V) → K → V → List (K × V)
  | [], k, v => [(k, v)]
  | p :: ps, k, v => if eqb p.1 k then (p.1, v) :: ps else p :: dictSet eqb ps k v

/-- Dict deletion `del d[k]`: drop the matching entry. -/
def dictErase {K V : Type} (eqb : K → K → Bool) : List (K × V) → K → List (K × V)
  | [], _ => []
  | p :: ps, k => if eqb p.1 k then ps else p :: dictErase eqb ps k

/-- In-place mutation of the value stored under `k` (Python aliasing of
`adj_list = self.graph[from_node]` followed by mutation of `adj_list`). -/
def dictModify {K V : Type} (eqb : K → K → Bool) : List (K × V) → K → (V → V) → List (K × V)
  | [], _, _ => []
  | p :: ps, k, f => if eqb p.1 k then (p.1, f p.2) :: ps else p :: dictModify eqb ps k f

/-- `JudgeManager` state: `self.graph` (a dict from node to a dict from verdict
to node, in insertion order) and `self._start_node` (`None` by default). -/
structure JudgeManager where
  graph : List (JudgeNode × List (JudgeVerdict × JudgeNode))
  start_node : Option JudgeNode
deriving DecidableEq

/-- `JudgeManager.__init__`. -/
def emptyManager : JudgeManager := ⟨[], none⟩

/-- `JudgeManager.nodes`: `list(self.graph.keys())`. -/
def nodes (g : JudgeManager) : List JudgeNode := g.graph.map (·.1)

/-- `JudgeManager.get_node_by_name`. -/
def get_node_by_name (g : JudgeManager) (s : String) : Except PyError JudgeNode :=
  match (nodes g).find? (fun n => n.name == s) with
  | some n => .ok n
  | none => .error .judgeNodeError

/-- `JudgeManager.set_start_node`: `KeyError` unless the node is registered. -/
def set_start_node (g : JudgeManager) (n : JudgeNode) : Except PyError JudgeManager :=
  if dictContains pyEqb g.graph n then .ok { g with start_node := some n }
  else .error .keyError

/-- `JudgeManager.get_start_node`. -/
def get_start_node (g : JudgeManager) : Except PyError JudgeNode :=
  match g.start_node with
  | none => .error .judgeNodeError
  | some n => .ok n

/-- `JudgeManager.add_node`: `JudgeNodeError` if a node with the same name is
already registered, otherwise insert with an empty adjacency dict. -/
def add_node (g : JudgeManager) (n : JudgeNode) : Except PyError JudgeManager :=
  if dictContains pyEqb g.graph n then .error .judgeNodeError
  else .ok { g with graph := g.graph ++ [(n, [])] }

/-- `JudgeManager.add_connection`: `ResourceWarning` for an `EndNode` source,
`KeyError` if the source is not registered (the `self.graph[from_node]` lookup)
or the target is not registered, otherwise set/overwrite the labeled edge. -/
def add_connection (g : JudgeManager) (from_node to_node : JudgeNode)
    (with_verdict : JudgeVerdict) : Except PyError JudgeManager :=
  if from_node.isEnd then .error .resourceWarning
  else
    match dictGet? pyEqb g.graph from_node with
    | none => .error .keyError
    | some _ =>
      if dictContains pyEqb g.graph to_node then
        let graph2 := dictModify pyEqb g.graph from_node
          (fun adj => dictSet (· == ·) adj with_verdict to_node)
        .ok { g with graph := graph2 }
      else .error .keyError

/-- `JudgeManager.remove_node`: `del self.graph[node]` (`KeyError` if absent),
then drop from every remaining adjacency dict the edges whose target `is` the
passed object (object identity, not `__eq__`). -/
def remove_node (g : JudgeManager) (node : JudgeNode) : Except PyError JudgeManager :=
  if dictContains pyEqb g.graph node then
    let graph2 := (dictErase pyEqb g.graph node).map
      (fun p => (p.1, p.2.filter (fun q => !(idEqb q.2 node))))
    .ok { g with graph := graph2 }
  else .error .keyError

/-- `JudgeManager.remove_connection_by_node`: drop every edge of `from_node`
whose target `is` `to_node`; `KeyError` if the source is absent or no edge
matches. -/
def remove_connection_by_node (g : JudgeManager) (from_node to_node : JudgeNode) :
    Except PyError JudgeManager :=
  match dictGet? pyEqb g.graph from_node with
  | none => .error .keyError
  | some adj =>
    if adj.any (fun q => idEqb q.2 to_node) then
      let graph2 := dictModify pyEqb g.graph from_node
        (fun a => a.filter (fun q => !(idEqb q.2 to_node)))
      .ok { g with graph := graph2 }
    else .error .keyError

/-- `JudgeManager.remove_connection_by_verdict`: `del adj_list[verdict]`. -/
def remove_connection_by_verdict (g : JudgeManager) (from_node : JudgeNode)
    (verdict : JudgeVerdict) : Except PyError JudgeManager :=
  match dictGet? pyEqb g.graph from_node with
  | none => .error .keyError
  | some adj =>
    if dictContains (· == ·) adj verdict then
      let graph2 := dictModify pyEqb g.graph from_node
        (fun a => dictErase (· == ·) a verdict)
      .ok { g with graph := graph2 }
    else .error .keyError

/-- `JudgeManager.send`: `KeyError` if the node is not registered, otherwise it
calls `node.start(...)`, which never touches the graph; the unchanged manager is
returned to make the absence of mutation explicit. -/
def send (g : JudgeManager) (node : JudgeNode) : Except PyError JudgeManager :=
  if dictContains pyEqb g.graph node then .ok g else .error .keyError

/-- `JudgeManager.advance` applied to a node instance (the `isinstance(node,
str)` branch of the source resolves a name first and is skipped for instances):
`EndNodeError` for an `EndNode`, then `self.graph[node].get(verdict)`. -/
def advance (g : JudgeManager) (node : JudgeNode) (verdict : JudgeVerdict) :
    Except PyError (Option JudgeNode) :=
  if node.isEnd then .error .endNodeError
  else
    match dictGet? pyEqb g.graph node with
    | none => .error .keyError
    | some adj => .ok (dictGet? (· == ·) adj verdict)

/-- `JudgeGraphIntegrityReport`. -/
structure JudgeGraphIntegrityReport where
  unreachable_nodes : List JudgeNode
  cannot_reach_end : List JudgeNode
  wrong_connections : List JudgeNode
  has_end_nodes : Bool
deriving DecidableEq

/-- `JudgeGraphIntegrityReport.no_errors`: `not (unreachable or cannot_reach_end
or wrong_connections or not has_end_nodes)` with Python list truthiness. -/
def no_errors (r : JudgeGraphIntegrityReport) : Bool :=
  !(!r.unreachable_nodes.isEmpty || !r.cannot_reach_end.isEmpty ||
    !r.wrong_connections.isEmpty || !r.has_end_nodes)

/-- The `end_nodes` frozenset of `check_graph_integrity` (as a list). -/
def endNodes (g : JudgeManager) : List JudgeNode := (nodes g).filter (·.isEnd)

/-- `j in self.graph[i].values()` of `_floyd_warshall`: the lookup always
succeeds because `i` is drawn from the key list; `in` compares with `__eq__`. -/
def valuesContain (g : JudgeManager) (i j : JudgeNode) : Bool :=
  ((dictGet? pyEqb g.graph i).getD []).any (fun q => pyEqb q.2 j)

/-- Read `visit_matrix[i][j]` (out-of-range reads default to `false`; the loops
only ever read inside the `n × n` square). -/
def matGet (m : List (List Bool)) (i j : Nat) : Bool :=
  ((m.getD i []).getD j false)

/-- Write `visit_matrix[i][j] = b` (out-of-range writes are dropped, exactly as
they cannot occur in the source loops). -/
def matSet (m : List (List Bool)) (i j : Nat) (b : Bool) : List (List Bool) :=
  m.set i ((m.getD i []).set j b)

/-- Initial `visit_matrix`: `[[j in self.graph[i].values() or i is j for j in
node_list] for i in node_list]`. -/
def initMat (g : JudgeManager) : List (List Bool) :=
  (nodes g).map (fun a => (nodes g).map (fun b => valuesContain g a b || idEqb a b))

/-- The innermost `for j in range(nl_length)` loop for fixed `k`, `i`. -/
def fwRow (n k i : Nat) (m : List (List Bool)) : List (List Bool) :=
  (List.range n).foldl
    (fun m j => matSet m i j (matGet m i j || (matGet m i k && matGet m k j))) m

/-- The `for i in range(nl_length)` loop for fixed `k`. -/
def fwPass (n k : Nat) (m : List (List Bool)) : List (List Bool) :=
  (List.range n).foldl (fun m i => fwRow n k i m) m

/-- The full triple loop of `_floyd_warshall` (the matrix after all `k`). -/
def fwMatrix (g : JudgeManager) : List (List Bool) :=
  (List.range (nodes g).length).foldl
    (fun m k => fwPass (nodes g).length k m) (initMat g)

/-- `JudgeManager._floyd_warshall`: the output dict `out[node] = frozenset(
node_list[i] for i, b in enumerate(visit_matrix[index]) if b)` (as a list in
index order). -/
def _floyd_warshall (g : JudgeManager) : List (JudgeNode × List JudgeNode) :=
  let ns := nodes g
  let m := fwMatrix g
  ns.enum.map (fun p => (p.2, (ns.enum.filter (fun q => matGet m p.1 q.1)).map (·.2)))

/-- `JudgeManager.check_graph_integrity`.  `reach_list[self._start_node]` raises
`KeyError` when the start node is unset (`None` is not a key) or not registered;
the per-node lookups `reach_list[node]` always succeed since the keys are
exactly `self.nodes`.  The frozenset differences/intersections compare nodes
with `__eq__`; the resulting collections are modelled in node-list order. -/
def check_graph_integrity (g : JudgeManager) :
    Except PyError JudgeGraphIntegrityReport :=
  let reach := _floyd_warshall g
  let ends := endNodes g
  match g.start_node with
  | none => .error .keyError
  | some s =>
    match dictGet? pyEqb reach s with
    | none => .error .keyError
    | some reachStart =>
      let unreachable := (nodes g).filter (fun x => !(reachStart.any (fun r => pyEqb x r)))
      let cannot := (nodes g).filter (fun x =>
        !(ends.any (fun e => ((dictGet? pyEqb reach x).getD []).any (fun r => pyEqb e r))))
      let wrong := (nodes g).filter (fun x =>
        let keys := ((dictGet? pyEqb g.graph x).getD []).map (·.1)
        !((keys.contains JudgeVerdict.OK && keys.contains JudgeVerdict.FAIL) ||
          (keys.contains JudgeVerdict.OK && keys.contains JudgeVerdict.INCONCLUSIVE) ||
          x.isEnd))
      .ok ⟨unreachable, cannot, wrong, !ends.isEmpty⟩

/-- Index-level adjacency of the decision graph: entry `(i, j)` of the initial
`visit_matrix` without its diagonal part (`false` outside the index square). -/
def adjIdx (g : JudgeManager) (i j : Nat) : Bool :=
  match (nodes g)[i]?, (nodes g)[j]? with
  | some a, some b => valuesContain g a b
  | _, _ => false

/-- Entry `(i, j)` of the initial `visit_matrix`, as an index function. -/
def initIdx (g : JudgeManager) (i j : Nat) : Bool :=
  match (nodes g)[i]?, (nodes g)[j]? with
  | some a, some b => valuesContain g a b || idEqb a b
  | _, _ => false

/-- A chain of `R`-steps from `a` to `b` through the listed intermediates. -/
def chainR {α : Type} (R : α → α → Prop) : α → List α → α → Prop
  | a, [], b => R a b
  | a, x :: xs, b => R a x ∧ chainR R x xs b

/-- Functional reference form of the Floyd–Warshall iteration: `fwFun A n K` is
the matrix after the outer loop has processed the intermediates `0, …, K-1`
(cells outside the `n × n` square stay at their base value). -/
def fwFun (A : Nat → Nat → Bool) (n : Nat) : Nat → Nat → Nat → Bool
  | 0, i, j => A i j
  | K + 1, i, j =>
    if i < n ∧ j < n then
      fwFun A n K i j || (fwFun A n K i K && fwFun A n K K j)
    else fwFun A n K i j

/-- The matrix is an `n × n` table. -/
def Dims (m : List (List Bool)) (n : Nat) : Prop :=
  m.length = n ∧ ∀ r ∈ m, r.length = n

/-- The start-node invariant of the spec: the start node, if set, is a
registered member (membership by `__eq__`, i.e. by name). -/
def startInvB (g : JudgeManager) : Bool :=
  match g.start_node with
  | none => true
  | some s => dictContains pyEqb g.graph s

/-- Well-formedness maintained by construction through `add_node`: registered
node names are pairwise distinct, and every adjacency dict has pairwise
distinct verdict keys (both automatic for Python dicts). -/
def wellFormed (g : JudgeManager) : Prop :=
  ((nodes g).map (·.name)).Nodup ∧ ∀ p ∈ g.graph, (p.2.map (·.1)).Nodup

instance (g : JudgeManager) : Decidable (wellFormed g) := by
  unfold wellFormed; infer_instance

/-- Follows the spec: one directed edge step, ignoring verdict labels; node
identity is the name (`x` steps to `y` iff some registered node named `x` has
an outgoing edge whose target is named `y`). -/
def specEdge (g : JudgeManager) (x y : String) : Prop :=
  ∃ p ∈ g.graph, p.1.name = x ∧ ∃ q ∈ p.2, q.2.name = y

/-- Follows the spec: the set of nodes reachable from a node (including itself)
via directed edges, ignoring verdict labels — the reflexive-transitive closure
of `specEdge`, which is what brute-force BFS/DFS computes. -/
def specReachable (g : JudgeManager) : String → String → Prop :=
  Relation.ReflTransGen (specEdge g)

/-- Models `pickle.loads(pickle.dumps(...))` for one node object: the restored
object has the same attribute values (`_id`, class, `meaning`) but lives at a
fresh address `ρ iid`. -/
def reNode (ρ : Nat → Nat) (n : JudgeNode) : JudgeNode :=
  { n with iid := ρ n.iid }

/-- Models the `serialise`/`unpack` round trip of `JudgeManager`: pickling and
unpickling rebuilds an isomorphic object graph — every node object is replaced
by its reinstantiation along a fresh-address map `ρ`, with the structure of
`graph` and `_start_node` preserved. -/
def unpack_serialise (ρ : Nat → Nat) (g : JudgeManager) : JudgeManager :=
  { graph := g.graph.map (fun p => (reNode ρ p.1, p.2.map (fun q => (q.1, reNode ρ q.2)))),
    start_node := g.start_node.map (reNode ρ) }

/-- Python `==` on the inner `dict[JudgeVerdict, JudgeNodeBase]`: same length
and every key of the left dict maps in the right dict to an `__eq__`-equal
value. -/
def adjPyEqb (a b : List (JudgeVerdict × JudgeNode)) : Bool :=
  a.length == b.length &&
  a.all (fun q => match dictGet? (· == ·) b q.1 with
    | some t => pyEqb q.2 t
    | none => false)

/-- Python `==` on `self.graph`: same length and every key of the left dict
maps in the right dict to an `==`-equal adjacency dict. -/
def graphPyEqb (x y : List (JudgeNode × List (JudgeVerdict × JudgeNode))) : Bool :=
  x.length == y.length &&
  x.all (fun p => match dictGet? pyEqb y p.1 with
    | some adj => adjPyEqb p.2 adj
    | none => false)

/-- `JudgeManager.__eq__`: `self.graph == other.graph and self._start_node ==
other._start_node` (where `None == node` and `node == None` are `False`). -/
def managerPyEqb (a b : JudgeManager) : Bool :=
  graphPyEqb a.graph b.graph &&
  (match a.start_node, b.start_node with
   | none, none => true
   | some x, some y => pyEqb x y
   | _, _ => false)

/-! Concrete node instances and graphs used by the spec scenarios (the same
graphs as the repository's `test_judge_manager.py`). -/

/-- Scenario node `a` (a plain node). -/
def nA : JudgeNode := ⟨"a", false, none, 0⟩

/-- Scenario node `a2` (a plain node). -/
def nA2 : JudgeNode := ⟨"a2", false, none, 1⟩

/-- Scenario node `b` (a plain node). -/
def nB : JudgeNode := ⟨"b", false, none, 2⟩

/-- Scenario node `c` (a plain node). -/
def nC : JudgeNode := ⟨"c", false, none, 3⟩

/-- Scenario terminal node `END` (an `EndNode` meaning OK). -/
def nEnd : JudgeNode := ⟨"END", true, some .OK, 4⟩

/-- Scenario A graph: `a: OK→a2, FAIL→a; a2: OK→b; b: OK→c, FAIL→a;
c: OK→end, FAIL→b`, start node `a`. -/
def gA : JudgeManager :=
  ⟨[(nA, [(.OK, nA2), (.FAIL, nA)]),
    (nA2, [(.OK, nB)]),
    (nB, [(.OK, nC), (.FAIL, nA)]),
    (nC, [(.OK, nEnd), (.FAIL, nB)]),
    (nEnd, [])], some nA⟩

/-- Scenario B graph: `a: OK→b, FAIL→a; b: OK→end, FAIL→a`. -/
def gB : JudgeManager :=
  ⟨[(nA, [(.OK, nB), (.FAIL, nA)]),
    (nB, [(.OK, nEnd), (.FAIL, nA)]),
    (nEnd, [])], none⟩

/-- A terminal node registered in no scenario graph. -/
def nEndX : JudgeNode := ⟨"END2", true, some .FAIL, 9⟩

/-- A node object distinct from `nA` (different class and internal state) but
carrying the same name, hence `__eq__`-equal to `nA`. -/
def nAlias : JudgeNode := ⟨"a", true, some .OK, 7⟩

/-- A plain node object with the same name as `nA` but a different address. -/
def aAlias : JudgeNode := ⟨"a", false, none, 7⟩

/-- A fresh plain node used for successful-insertion witnesses. -/
def nD : JudgeNode := ⟨"d", false, none, 5⟩

/-- A one-node graph whose single node is also the start node. -/
def gSolo : JudgeManager := ⟨[(nA, [])], some nA⟩

/-- `gSolo` after `remove_node(a)`: the node set is empty but `_start_node`
still references `a`. -/
def gSoloR : JudgeManager := ⟨[], some nA⟩

/-- A graph with nodes `a`, `b` and the edge `b →OK→ a`, where the edge target
is the registered instance `nA`. -/
def gAlias : JudgeManager := ⟨[(nA, []), (nB, [(.OK, nA)])], none⟩

/-- `gAlias` after `remove_node(aAlias)`: the entry for `a` is gone, but the
edge `b →OK→ nA` survives the identity-based cascade and dangles. -/
def gAliasR : JudgeManager := ⟨[(nB, [(.OK, nA)])], none⟩

/-- A graph in which only `b` is registered. -/
def gOnlyB : JudgeManager := ⟨[(nB, [])], none⟩

/-- A cyclic one-node graph (`a →OK→ a`, start `a`), as in the repository's
cyclic serialization test. -/
def gCyc : JudgeManager := ⟨[(nA, [(.OK, nA)])], some nA⟩

/-- `gB` after `remove_node(b)`: `b` is gone and so is the edge `a →OK→ b`. -/
def gBr : JudgeManager := ⟨[(nA, [(.FAIL, nA)]), (nEnd, [])], none⟩

/-- The updated manager produced by a successful
`add_connection(from_node, to_node, with_verdict)`. -/
def addedConn (g : JudgeManager) (from_node to_node : JudgeNode)
    (with_verdict : JudgeVerdict) : JudgeManager :=
  let graph2 := dictModify pyEqb g.graph from_node
    (fun adj => dictSet (· == ·) adj with_verdict to_node)
  { g with graph := graph2 }

/-!  Helper lemmas about the dict model. -/

theorem dictContains_eq_any {K V : Type} (eqb : K → K → Bool)
    (l : List (K × V)) (k : K) :
    dictContains eqb l k = (l.map (·.1)).any (fun a => eqb a k) := by
  induction l with
  | nil => rfl
  | cons p ps ih =>
    by_cases h : eqb p.1 k = true
    · simp [dictContains, dictGet?, h]
    · simp only [Bool.not_eq_true] at h
      simp [dictContains, dictGet?, h] at ih ⊢
      exact ih

theorem dictGet?_eq_none_of {K V : Type} (eqb : K → K → Bool) :
    ∀ (l : List (K × V)) (k : K), (∀ p ∈ l, eqb p.1 k = false) →
      dictGet? eqb l k = none
  | [], _, _ => rfl
  | p :: ps, k, h => by
    have hp := h p (List.mem_cons_self _ _)
    rw [dictGet?, if_neg (by simp [hp])]
    exact dictGet?_eq_none_of eqb ps k (fun q hq => h q (List.mem_cons_of_mem _ hq))

theorem dictGet?_pyEqb_congr {V : Type} (l : List (JudgeNode × V)) (k k' : JudgeNode)
    (h : k.name = k'.name) :
    dictGet? pyEqb l k = dictGet? pyEqb l k' := by
  induction l with
  | nil => rfl
  | cons p ps ih => simp only [dictGet?, pyEqb, h, ih]

theorem dictGet?_pyEqb_of_mem {V : Type} (l : List (JudgeNode × V))
    (k : JudgeNode) (v : V)
    (hnd : (l.map (fun p => p.1.name)).Nodup) (hm : (k, v) ∈ l) :
    dictGet? pyEqb l k = some v := by
  induction l with
  | nil => simp at hm
  | cons p ps ih =>
    simp only [List.map_cons, List.nodup_cons] at hnd
    rcases List.mem_cons.mp hm with h | h
    · subst h
      simp [dictGet?, pyEqb]
    · have hk : k.name ∈ ps.map (fun p => p.1.name) :=
        List.mem_map.mpr ⟨(k, v), h, rfl⟩
      have hne : p.1.name ≠ k.name := fun he => hnd.1 (he ▸ hk)
      simp only [dictGet?, pyEqb]
      rw [if_neg (by simpa using hne)]
      exact ih hnd.2 h

theorem dictGet?_beq_of_mem {V : Type} (l : List (JudgeVerdict × V))
    (k : JudgeVerdict) (v : V)
    (hnd : (l.map (·.1)).Nodup) (hm : (k, v) ∈ l) :
    dictGet? (· == ·) l k = some v := by
  induction l with
  | nil => simp at hm
  | cons p ps ih =>
    simp only [List.map_cons, List.nodup_cons] at hnd
    rcases List.mem_cons.mp hm with h | h
    · subst h
      simp [dictGet?]
    · have hk : k ∈ ps.map (·.1) := List.mem_map.mpr ⟨(k, v), h, rfl⟩
      have hne : p.1 ≠ k := fun he => hnd.1 (he ▸ hk)
      simp only [dictGet?]
      rw [if_neg (by simpa using hne)]
      exact ih hnd.2 h

theorem dictModify_map_fst {K V : Type} (eqb : K → K → Bool)
    (l : List (K × V)) (k : K) (f : V → V) :
    (dictModify eqb l k f).map (·.1) = l.map (·.1) := by
  induction l with
  | nil => rfl
  | cons p ps ih =>
    by_cases h : eqb p.1 k = true
    · simp [dictModify, h]
    · simp only [Bool.not_eq_true] at h
      simp [dictModify, h, ih]

theorem dictGet?_dictModify_self {K V : Type} (eqb : K → K → Bool)
    (l : List (K × V)) (k : K) (f : V → V) :
    dictGet? eqb (dictModify eqb l k f) k = (dictGet? eqb l k).map f := by
  induction l with
  | nil => rfl
  | cons p ps ih =>
    by_cases h : eqb p.1 k = true
    · simp [dictModify, dictGet?, h]
    · simp only [Bool.not_eq_true] at h
      simp [dictModify, dictGet?, h, ih]

theorem dictGet?_dictSet_self {K V : Type} (eqb : K → K → Bool)
    (hrefl : ∀ k, eqb k k = true) (l : List (K × V)) (k : K) (v : V) :
    dictGet? eqb (dictSet eqb l k v) k = some v := by
  induction l with
  | nil => simp [dictSet, dictGet?, hrefl]
  | cons p ps ih =>
    by_cases h : eqb p.1 k = true
    · simp [dictSet, dictGet?, h]
    · simp only [Bool.not_eq_true] at h
      simp [dictSet, dictGet?, h, ih]

theorem dictSet_map_fst {K V : Type} (eqb : K → K → Bool)
    (l : List (K × V)) (k : K) (v : V) :
    (dictSet eqb l k v).map (·.1) =
      (if (l.map (·.1)).any (fun a => eqb a k) then l.map (·.1)
       else l.map (·.1) ++ [k]) := by
  induction l with
  | nil => simp [dictSet]
  | cons p ps ih =>
    by_cases h : eqb p.1 k = true
    · simp [dictSet, h]
    · simp only [Bool.not_eq_true] at h
      simp only [dictSet, h]
      by_cases h2 : (ps.map (·.1)).any (fun a => eqb a k) = true
      · simp [h, h2, ih]
      · simp only [Bool.not_eq_true] at h2
        simp [h, h2, ih]

theorem dictContains_dictErase_pyEqb {V : Type} (l : List (JudgeNode × V))
    (k n : JudgeNode) (h : k.name ≠ n.name) :
    dictContains pyEqb (dictErase pyEqb l n) k = dictContains pyEqb l k := by
  induction l with
  | nil => rfl
  | cons p ps ih =>
    by_cases hn : pyEqb p.1 n = true
    · have hn' : p.1.name = n.name := by simpa [pyEqb] using hn
      have hpk : pyEqb p.1 k = false := by
        simp only [pyEqb, beq_eq_false_iff_ne]
        intro he
        exact h (he ▸ hn')
      simp [dictErase, hn, dictContains, dictGet?, hpk]
    · simp only [Bool.not_eq_true] at hn
      by_cases hk : pyEqb p.1 k = true
      · simp [dictErase, hn, dictContains, dictGet?, hk]
      · simp only [Bool.not_eq_true] at hk
        simp [dictErase, hn, dictContains, dictGet?, hk] at ih ⊢
        exact ih

/-! Claim C8. -/

/-- C8: for every integrity report, `no_errors` is `true` iff
`unreachable_nodes`, `cannot_reach_end` and `wrong_connections` are empty and
`has_end_nodes` is `true`. -/
theorem C8_no_errors_iff (r : JudgeGraphIntegrityReport) :
    no_errors r = true ↔
      (r.unreachable_nodes = [] ∧ r.cannot_reach_end = [] ∧
       r.wrong_connections = [] ∧ r.has_end_nodes = true) := by
  cases r with
  | mk u c w h => simp [no_errors, List.isEmpty_iff, and_assoc]

/-! Claim C10. -/

/-- C10: `advance` raises `EndNodeError` for every terminal node, registered or
not: the `isinstance(node, EndNode)` check precedes the `self.graph[node]`
lookup, so `KeyError` is never raised for a terminal node passed by instance. -/
theorem C10_advance_terminal_before_lookup (g : JudgeManager) (n : JudgeNode)
    (v : JudgeVerdict) (h : n.isEnd = true) :
    advance g n v = .error .endNodeError := by
  simp [advance, h]

/-- Witness for C10: the terminal node `nEndX` is not registered in `gB`, yet
`advance` raises `EndNodeError`, not `KeyError`. -/
theorem C10_witness :
    nEndX.isEnd = true ∧ dictContains pyEqb gB.graph nEndX = false ∧
      advance gB nEndX .OK = .error .endNodeError :=
  ⟨by decide, by decide, C10_advance_terminal_before_lookup gB nEndX .OK (by decide)⟩

/-! Claim C9. -/

/-- C9: `add_node` fails with the duplicate-node error whenever any registered
node carries the same name — even a node whose internal state differs, since
equality is by name alone (the error is raised before any mutation, so the
graph is unchanged); otherwise it appends the node with an empty edge set. -/
theorem C9_add_node (g : JudgeManager) (n : JudgeNode) :
    ((∃ m ∈ nodes g, m.name = n.name) → add_node g n = .error .judgeNodeError) ∧
    (dictContains pyEqb g.graph n = false →
      add_node g n = .ok { g with graph := g.graph ++ [(n, [])] }) := by
  constructor
  · rintro ⟨m, hm, hname⟩
    have hc : dictContains pyEqb g.graph n = true := by
      rw [dictContains_eq_any]
      exact List.any_eq_true.mpr ⟨m, hm, by simp [pyEqb, hname]⟩
    simp [add_node, hc]
  · intro h
    simp [add_node, h]

/-- Witness for C9: `nAlias` has the same name as the registered `nA` but a
different class and internal state, and is rejected; the fresh `nD` is inserted
with an empty edge set. -/
theorem C9_witness :
    nA ∈ nodes gB ∧ nA.name = nAlias.name ∧ nA ≠ nAlias ∧
      add_node gB nAlias = .error .judgeNodeError ∧
      add_node gB nD = .ok { gB with graph := gB.graph ++ [(nD, [])] } :=
  ⟨by decide, by decide, by decide,
    (C9_add_node gB nAlias).1 ⟨nA, by decide, by decide⟩,
    (C9_add_node gB nD).2 (by decide)⟩

/-! Claim C2. -/

/-- C2: for a registered node, `advance` raises `EndNodeError` on terminal
nodes and otherwise returns the `verdict`-labeled edge target, or `none` (not
an error) when no such edge exists; the Scenario B advance sequence holds. -/
theorem C2_advance_behaviour :
    (∀ (g : JudgeManager) (n : JudgeNode) (v : JudgeVerdict),
      dictContains pyEqb g.graph n = true → n.isEnd = true →
        advance g n v = .error .endNodeError) ∧
    (∀ (g : JudgeManager) (n : JudgeNode) (v : JudgeVerdict)
        (adj : List (JudgeVerdict × JudgeNode)),
      n.isEnd = false → dictGet? pyEqb g.graph n = some adj →
        ((∀ t, (v, t) ∈ adj → (adj.map (·.1)).Nodup → advance g n v = .ok (some t)) ∧
         ((∀ q ∈ adj, q.1 ≠ v) → advance g n v = .ok none))) ∧
    (advance gB nA .OK = .ok (some nB) ∧ advance gB nB .FAIL = .ok (some nA) ∧
     advance gB nB .OK = .ok (some nEnd) ∧
     advance gB nEnd .OK = .error .endNodeError) := by
  refine ⟨fun g n v _ h => by simp [advance, h], fun g n v adj hend hadj => ⟨?_, ?_⟩,
    by decide, by decide, by decide, by decide⟩
  · intro t hmem hnd
    simp [advance, hend, hadj, dictGet?_beq_of_mem adj v t hnd hmem]
  · intro hno
    have : dictGet? (· == ·) adj v = none :=
      dictGet?_eq_none_of _ adj v (fun p hp => by
        simpa [beq_eq_false_iff_ne] using hno p hp)
    simp [advance, hend, hadj, this]

/-- Witness for C2: in Scenario B's graph, `a` is registered and non-terminal,
and advancing with an unhandled verdict returns `none` rather than an error. -/
theorem C2_witness :
    nA.isEnd = false ∧
      dictGet? pyEqb gB.graph nA = some [(.OK, nB), (.FAIL, nA)] ∧
      advance gB nA .INCONCLUSIVE = .ok none :=
  ⟨by decide, by decide,
    ((C2_advance_behaviour.2.1 gB nA .INCONCLUSIVE [(.OK, nB), (.FAIL, nA)]
      (by decide) (by decide)).2 (by decide))⟩

theorem dictContains_append_of {K V : Type} (eqb : K → K → Bool)
    (l₁ l₂ : List (K × V)) (k : K) (h : dictContains eqb l₁ k = true) :
    dictContains eqb (l₁ ++ l₂) k = true := by
  induction l₁ with
  | nil => simp [dictContains, dictGet?] at h
  | cons p ps ih =>
    by_cases hp : eqb p.1 k = true
    · simp [dictContains, dictGet?, hp]
    · simp only [Bool.not_eq_true] at hp
      simp only [dictContains, dictGet?, hp, Bool.false_eq_true, if_false,
        List.cons_append] at h ⊢
      exact ih h

theorem dictContains_dictModify {K V : Type} (eqb : K → K → Bool)
    (l : List (K × V)) (k k' : K) (f : V → V) :
    dictContains eqb (dictModify eqb l k f) k' = dictContains eqb l k' := by
  rw [dictContains_eq_any, dictContains_eq_any, dictModify_map_fst]

theorem dictContains_map_snd {K V W : Type} (eqb : K → K → Bool)
    (l : List (K × V)) (F : K × V → W) (k : K) :
    dictContains eqb (l.map (fun p => (p.1, F p))) k = dictContains eqb l k := by
  induction l with
  | nil => rfl
  | cons p ps ih =>
    by_cases h : eqb p.1 k = true
    · simp [dictContains, dictGet?, h]
    · simp only [Bool.not_eq_true] at h
      simp [dictContains, dictGet?, h] at ih ⊢
      exact ih

theorem dictContains_of_mem_nodes (g : JudgeManager) (n : JudgeNode)
    (h : n ∈ nodes g) : dictContains pyEqb g.graph n = true := by
  rw [dictContains_eq_any]
  exact List.any_eq_true.mpr ⟨n, h, by simp [pyEqb]⟩

theorem dictSet_keys_nodup {V : Type} (l : List (JudgeVerdict × V))
    (k : JudgeVerdict) (v : V) (h : (l.map (·.1)).Nodup) :
    ((dictSet (· == ·) l k v).map (·.1)).Nodup := by
  rw [dictSet_map_fst]
  by_cases hc : ((l.map (·.1)).any (fun a => a == k)) = true
  · simpa [hc] using h
  · simp only [Bool.not_eq_true] at hc
    have hnk : k ∉ l.map (·.1) := by
      intro hk
      have hmm : (l.map (·.1)).any (fun a => a == k) = true :=
        List.any_eq_true.mpr ⟨k, hk, by simp⟩
      rw [hc] at hmm
      exact Bool.noConfusion hmm
    simp [hc, List.nodup_append, h, hnk]

theorem dictErase_eq_filter {V : Type} (l : List (JudgeNode × V)) (n : JudgeNode)
    (hnd : (l.map (fun p => p.1.name)).Nodup) (hmem : n ∈ l.map (·.1)) :
    dictErase pyEqb l n = l.filter (fun p => !(pyEqb p.1 n)) := by
  induction l with
  | nil => rfl
  | cons p ps ih =>
    simp only [List.map_cons, List.nodup_cons] at hnd
    by_cases h : pyEqb p.1 n = true
    · have hpname : p.1.name = n.name := by simpa [pyEqb] using h
      have htail : ∀ q ∈ ps, (!(pyEqb q.1 n)) = true := by
        intro q hq
        have hqn : q.1.name ∈ ps.map (fun r => r.1.name) :=
          List.mem_map.mpr ⟨q, hq, rfl⟩
        have hne : q.1.name ≠ n.name := by
          intro he
          exact hnd.1 (by rw [hpname, ← he]; exact hqn)
        simp [pyEqb, hne]
      rw [dictErase, if_pos h, List.filter_cons_of_neg (by simp [h]),
        List.filter_eq_self.mpr htail]
    · simp only [Bool.not_eq_true] at h
      have hmem' : n ∈ ps.map (·.1) := by
        rcases List.mem_cons.mp hmem with he | htl
        · exfalso
          have he' : n = p.1 := he
          subst he'
          simp [pyEqb] at h
        · exact htl
      rw [dictErase, if_neg (by simp [h]), List.filter_cons_of_pos (by simp [h]),
        ih hnd.2 hmem']

theorem name_inj_of_nodup (g : JudgeManager)
    (hnd : ((nodes g).map (·.name)).Nodup) {x y : JudgeNode}
    (hx : x ∈ nodes g) (hy : y ∈ nodes g) (hname : x.name = y.name) : x = y :=
  List.inj_on_of_nodup_map hnd hx hy hname

/-! Claim C5. -/

/-- Counterexample for C5: with only `b` registered, calling `add_connection`
from the non-terminal unregistered node `a` to the registered target `b` raises
`KeyError` (at the `self.graph[from_node]` lookup) instead of setting the edge,
refuting the claim's unconditional "otherwise it sets the edge" case. -/
theorem C5_counterexample :
    nA.isEnd = false ∧ dictContains pyEqb gOnlyB.graph nB = true ∧
      add_connection gOnlyB nA nB .OK = .error .keyError := by decide

/-- C5 (amended): `add_connection` always fails for a terminal source,
regardless of the target; it raises the unknown-node error when the source is
non-terminal and the target is unregistered, and also (the amendment) when the
source itself is unregistered; when source and target are both registered and
the source is non-terminal, it sets/overwrites the labeled edge — keeping the
labels duplicate-free — and a subsequent `advance` with the same verdict
returns the target. -/
theorem C5_add_connection :
    (∀ (g : JudgeManager) (f t : JudgeNode) (v : JudgeVerdict), f.isEnd = true →
      add_connection g f t v = .error .resourceWarning) ∧
    (∀ (g : JudgeManager) (f t : JudgeNode) (v : JudgeVerdict), f.isEnd = false →
      dictContains pyEqb g.graph t = false →
      add_connection g f t v = .error .keyError) ∧
    (∀ (g : JudgeManager) (f t : JudgeNode) (v : JudgeVerdict), f.isEnd = false →
      dictContains pyEqb g.graph f = false →
      add_connection g f t v = .error .keyError) ∧
    (∀ (g : JudgeManager) (f t : JudgeNode) (v : JudgeVerdict)
        (adj : List (JudgeVerdict × JudgeNode)),
      f.isEnd = false → dictGet? pyEqb g.graph f = some adj →
      dictContains pyEqb g.graph t = true →
      (add_connection g f t v = .ok (addedConn g f t v) ∧
       dictGet? pyEqb (addedConn g f t v).graph f = some (dictSet (· == ·) adj v t) ∧
       advance (addedConn g f t v) f v = .ok (some t) ∧
       ((adj.map (·.1)).Nodup → ((dictSet (· == ·) adj v t).map (·.1)).Nodup))) := by
  refine ⟨fun g f t v h => by simp [add_connection, h], ?_, ?_, ?_⟩
  · intro g f t v hf ht
    cases hl : dictGet? pyEqb g.graph f with
    | none => simp [add_connection, hf, hl]
    | some adj => simp [add_connection, hf, hl, ht]
  · intro g f t v hf hc
    have hl : dictGet? pyEqb g.graph f = none := by
      rcases hx : dictGet? pyEqb g.graph f with _ | adj
      · rfl
      · rw [dictContains, hx] at hc
        simp at hc
    simp [add_connection, hf, hl]
  · intro g f t v adj hf hl ht
    have hok : add_connection g f t v = .ok (addedConn g f t v) := by
      simp [add_connection, hf, hl, ht, addedConn]
    have hlook : dictGet? pyEqb (addedConn g f t v).graph f =
        some (dictSet (· == ·) adj v t) := by
      simp only [addedConn]
      rw [dictGet?_dictModify_self, hl]
      rfl
    refine ⟨hok, hlook, ?_, fun hnd => dictSet_keys_nodup adj v t hnd⟩
    have hset := dictGet?_dictSet_self (· == ·) (fun k : JudgeVerdict => by simp) adj v t
    simp [advance, hf, hlook, hset]

/-- Witness for C5: from the terminal `END` of Scenario B's graph even an edge
to an unregistered target is rejected; adding `a →INCONCLUSIVE→ b` succeeds and
`advance(a, INCONCLUSIVE)` then returns `b`. -/
theorem C5_witness :
    nEnd.isEnd = true ∧
      add_connection gB nEnd nEndX .OK = .error .resourceWarning ∧
      advance (addedConn gB nA nB .INCONCLUSIVE) nA .INCONCLUSIVE = .ok (some nB) :=
  ⟨by decide, C5_add_connection.1 gB nEnd nEndX .OK (by decide),
    (C5_add_connection.2.2.2 gB nA nB .INCONCLUSIVE [(.OK, nB), (.FAIL, nA)]
      (by decide) (by decide) (by decide)).2.2.1⟩

/-! Claim C3. -/

/-- Counterexample for C3: removing the registered start node leaves
`_start_node` pointing at a node that is no longer a member, so `remove_node`
does not preserve the start-node invariant. -/
theorem C3_counterexample :
    startInvB gSolo = true ∧ remove_node gSolo nA = .ok gSoloR ∧
      startInvB gSoloR = false := by decide

/-- C3 (amended): every graph operation except `remove_node` preserves the
invariant that the start node, if set, is registered; `remove_node` preserves
it exactly when the removed node's name differs from the start node's name
(`send` returns the unchanged manager and `advance` mutates nothing, which the
model makes explicit by returning no state). -/
theorem C3_start_invariant :
    (∀ (g g' : JudgeManager) (n : JudgeNode), startInvB g = true →
      add_node g n = .ok g' → startInvB g' = true) ∧
    (∀ (g g' : JudgeManager) (f t : JudgeNode) (v : JudgeVerdict),
      startInvB g = true → add_connection g f t v = .ok g' →
      startInvB g' = true) ∧
    (∀ (g g' : JudgeManager) (n : JudgeNode), startInvB g = true →
      (∀ s, g.start_node = some s → s.name ≠ n.name) →
      remove_node g n = .ok g' → startInvB g' = true) ∧
    (∀ (g g' : JudgeManager) (f t : JudgeNode), startInvB g = true →
      remove_connection_by_node g f t = .ok g' → startInvB g' = true) ∧
    (∀ (g g' : JudgeManager) (f : JudgeNode) (v : JudgeVerdict),
      startInvB g = true → remove_connection_by_verdict g f v = .ok g' →
      startInvB g' = true) ∧
    (∀ (g g' : JudgeManager) (n : JudgeNode), set_start_node g n = .ok g' →
      startInvB g' = true) ∧
    (∀ (g g' : JudgeManager) (n : JudgeNode), startInvB g = true →
      send g n = .ok g' → startInvB g' = true) := by
  refine ⟨?_, ?_, ?_, ?_, ?_, ?_, ?_⟩
  · intro g g' n hinv h
    by_cases hc : dictContains pyEqb g.graph n = true
    · simp [add_node, hc] at h
    · simp only [Bool.not_eq_true] at hc
      simp only [add_node, hc, Bool.false_eq_true, if_false, Except.ok.injEq] at h
      subst h
      rcases hs : g.start_node with _ | s
      · simp [startInvB, hs]
      · simp only [startInvB, hs] at hinv ⊢
        exact dictContains_append_of pyEqb g.graph [(n, [])] s hinv
  · intro g g' f t v hinv h
    by_cases hf : f.isEnd = true
    · simp [add_connection, hf] at h
    · simp only [Bool.not_eq_true] at hf
      rcases hl : dictGet? pyEqb g.graph f with _ | adj
      · simp [add_connection, hf, hl] at h
      · by_cases ht : dictContains pyEqb g.graph t = true
        · simp only [add_connection, hf, Bool.false_eq_true, if_false, hl, ht,
            if_true, Except.ok.injEq] at h
          subst h
          rcases hs : g.start_node with _ | s
          · simp [startInvB, hs]
          · simp only [startInvB, hs] at hinv ⊢
            rw [dictContains_dictModify]
            exact hinv
        · simp only [Bool.not_eq_true] at ht
          simp [add_connection, hf, hl, ht] at h
  · intro g g' n hinv hname h
    by_cases hc : dictContains pyEqb g.graph n = true
    · simp only [remove_node, hc, if_true, Except.ok.injEq] at h
      subst h
      rcases hs : g.start_node with _ | s
      · simp [startInvB, hs]
      · simp only [startInvB, hs] at hinv ⊢
        rw [dictContains_map_snd, dictContains_dictErase_pyEqb _ _ _ (hname s hs)]
        exact hinv
    · simp only [Bool.not_eq_true] at hc
      simp [remove_node, hc] at h
  · intro g g' f t hinv h
    rcases hl : dictGet? pyEqb g.graph f with _ | adj
    · simp [remove_connection_by_node, hl] at h
    · by_cases ha : adj.any (fun q => idEqb q.2 t) = true
      · simp only [remove_connection_by_node, hl, ha, if_true,
          Except.ok.injEq] at h
        subst h
        rcases hs : g.start_node with _ | s
        · simp [startInvB, hs]
        · simp only [startInvB, hs] at hinv ⊢
          rw [dictContains_dictModify]
          exact hinv
      · simp only [Bool.not_eq_true] at ha
        simp [remove_connection_by_node, hl, ha] at h
  · intro g g' f v hinv h
    rcases hl : dictGet? pyEqb g.graph f with _ | adj
    · simp [remove_connection_by_verdict, hl] at h
    · by_cases ha : dictContains (· == ·) adj v = true
      · simp only [remove_connection_by_verdict, hl, ha, if_true,
          Except.ok.injEq] at h
        subst h
        rcases hs : g.start_node with _ | s
        · simp [startInvB, hs]
        · simp only [startInvB, hs] at hinv ⊢
          rw [dictContains_dictModify]
          exact hinv
      · simp only [Bool.not_eq_true] at ha
        simp [remove_connection_by_verdict, hl, ha] at h
  · intro g g' n h
    by_cases hc : dictContains pyEqb g.graph n = true
    · simp only [set_start_node, hc, if_true, Except.ok.injEq] at h
      subst h
      simpa [startInvB] using hc
    · simp only [Bool.not_eq_true] at hc
      simp [set_start_node, hc] at h
  · intro g g' n hinv h
    by_cases hc : dictContains pyEqb g.graph n = true
    · simp only [send, hc, if_true, Except.ok.injEq] at h
      subst h
      exact hinv
    · simp only [Bool.not_eq_true] at hc
      simp [send, hc] at h

/-- Witness for C3 (amended): concrete preservation instances — adding node
`d` to `gB`, and removing `b` from `gSolo`-like graph `gB` (whose start is
unset), keep the invariant. -/
theorem C3_witness :
    startInvB gB = true ∧
      add_node gB nD = .ok { gB with graph := gB.graph ++ [(nD, [])] } ∧
      startInvB { gB with graph := gB.graph ++ [(nD, [])] } = true ∧
      set_start_node gB nA = .ok { gB with start_node := some nA } ∧
      startInvB { gB with start_node := some nA } = true :=
  ⟨by decide, by decide,
    C3_start_invariant.1 gB { gB with graph := gB.graph ++ [(nD, [])] } nD
      (by decide) (by decide),
    by decide,
    C3_start_invariant.2.2.2.2.2.1 gB { gB with start_node := some nA } nA
      (by decide)⟩

theorem map_fst_of_map_snd {K V W : Type} (l : List (K × V)) (F : K × V → W) :
    (l.map (fun p => (p.1, F p))).map (·.1) = l.map (·.1) := by
  induction l with
  | nil => rfl
  | cons p ps ih => simp [ih]

theorem nodup_names_graph (g : JudgeManager)
    (hnd : ((nodes g).map (·.name)).Nodup) :
    (g.graph.map (fun p => p.1.name)).Nodup := by
  simpa [nodes, List.map_map, Function.comp] using hnd

/-! Claim C7. -/

/-- C7: the serialization round trip restores a graph `__eq__`-equal to the
original: for every well-formed graph (including cyclic ones) and every
fresh-address reinstantiation of its node objects, the restored manager
compares equal to the original under `JudgeManager.__eq__` (node identity by
name plus edge structure plus the start-node reference). -/
theorem C7_round_trip (g : JudgeManager) (ρ : Nat → Nat) (hwf : wellFormed g) :
    managerPyEqb (unpack_serialise ρ g) g = true := by
  obtain ⟨hnames, hadjs⟩ := hwf
  have hnames' : (g.graph.map (fun p => p.1.name)).Nodup := nodup_names_graph g hnames
  simp only [managerPyEqb]
  rw [Bool.and_eq_true]
  refine ⟨?_, ?_⟩
  · simp only [graphPyEqb]
    rw [Bool.and_eq_true]
    refine ⟨by simp [unpack_serialise], ?_⟩
    rw [List.all_eq_true]
    intro p' hp'
    simp only [unpack_serialise, List.mem_map] at hp'
    obtain ⟨p, hp, rfl⟩ := hp'
    have hcongr : dictGet? pyEqb g.graph (reNode ρ p.1) = dictGet? pyEqb g.graph p.1 :=
      dictGet?_pyEqb_congr _ _ _ rfl
    have hself : dictGet? pyEqb g.graph p.1 = some p.2 :=
      dictGet?_pyEqb_of_mem g.graph p.1 p.2 hnames' (by simpa using hp)
    simp only [hcongr, hself]
    simp only [adjPyEqb]
    rw [Bool.and_eq_true]
    refine ⟨by simp, ?_⟩
    rw [List.all_eq_true]
    intro q' hq'
    simp only [List.mem_map] at hq'
    obtain ⟨q, hq, rfl⟩ := hq'
    have hqget : dictGet? (· == ·) p.2 q.1 = some q.2 :=
      dictGet?_beq_of_mem p.2 q.1 q.2 (hadjs p hp) (by simpa using hq)
    simp [hqget, pyEqb, reNode]
  · rcases hs : g.start_node with _ | s
    · simp [unpack_serialise, hs]
    · simp [unpack_serialise, hs, pyEqb, reNode]

/-- Witness for C7: the cyclic one-node graph of the repository's serialization
test round-trips to an `__eq__`-equal manager under the address map `· + 10`. -/
theorem C7_witness :
    wellFormed gCyc ∧ managerPyEqb (unpack_serialise (· + 10) gCyc) gCyc = true :=
  ⟨by decide, C7_round_trip gCyc (· + 10) (by decide)⟩

/-! Claim C4. -/

/-- Counterexample for C4: `aAlias` is a distinct object with the same name as
the registered `nA`, so it is registered in the claim's (name-equality) sense;
`remove_node(aAlias)` deletes the dict entry for `a` (dict deletion uses
`__eq__`), but the cascade filters edge targets with `is`, so the edge
`b →OK→ nA` survives and dangles: its target is no longer registered. -/
theorem C4_counterexample :
    dictContains pyEqb gAlias.graph aAlias = true ∧
      remove_node gAlias aAlias = .ok gAliasR ∧
      (nB, [(.OK, nA)]) ∈ gAliasR.graph ∧ pyEqb nA aAlias = true ∧
      dictContains pyEqb gAliasR.graph nA = false := by decide

/-- C4 (amended): `remove_node` on an unregistered node fails with the
unknown-node error (before any mutation); on the registered node instance
itself, in a graph whose edge targets are registered instances (instance
coherence — the situation every graph built only through `add_node` /
`add_connection` with shared instances is in), it removes exactly that node
and every edge targeting it, leaving no dangling edges. -/
theorem C4_remove_node_cascade :
    (∀ (g : JudgeManager) (n : JudgeNode), dictContains pyEqb g.graph n = false →
      remove_node g n = .error .keyError) ∧
    (∀ (g g' : JudgeManager) (n : JudgeNode),
      ((nodes g).map (·.name)).Nodup → n ∈ nodes g →
      (∀ p ∈ g.graph, ∀ q ∈ p.2, q.2 ∈ nodes g) →
      remove_node g n = .ok g' →
      ((∀ x, x ∈ nodes g' ↔ x ∈ nodes g ∧ x ≠ n) ∧
       (∀ p ∈ g'.graph, ∀ q ∈ p.2, q.2 ≠ n ∧ q.2 ∈ nodes g') ∧
       (∀ p ∈ g.graph, p.1 ≠ n →
         (p.1, p.2.filter (fun q => !(idEqb q.2 n))) ∈ g'.graph))) := by
  constructor
  · intro g n h
    simp [remove_node, h]
  · intro g g' n hnd hmem hcoh h
    have hc : dictContains pyEqb g.graph n = true := dictContains_of_mem_nodes g n hmem
    simp only [remove_node, hc, if_true, Except.ok.injEq] at h
    rw [dictErase_eq_filter g.graph n (nodup_names_graph g hnd) hmem] at h
    subst h
    have hiff : ∀ x,
        x ∈ nodes { g with graph := ((g.graph.filter (fun p => !(pyEqb p.1 n))).map
          (fun p => (p.1, p.2.filter (fun q => !(idEqb q.2 n))))) } ↔
        x ∈ nodes g ∧ x ≠ n := by
      intro x
      simp only [nodes, map_fst_of_map_snd, List.mem_map]
      constructor
      · rintro ⟨p, hpmem, rfl⟩
        obtain ⟨hpg, hpn⟩ := List.mem_filter.mp hpmem
        refine ⟨⟨p, hpg, rfl⟩, ?_⟩
        intro he
        rw [he] at hpn
        simp [pyEqb] at hpn
      · rintro ⟨hx, hne⟩
        obtain ⟨p, hpg, rfl⟩ := hx
        refine ⟨p, List.mem_filter.mpr ⟨hpg, ?_⟩, rfl⟩
        have hname : p.1.name ≠ n.name := fun he =>
          hne (name_inj_of_nodup g hnd (List.mem_map.mpr ⟨p, hpg, rfl⟩) hmem he)
        simp [pyEqb, hname]
    refine ⟨hiff, ?_, ?_⟩
    · intro p' hp' q hq
      simp only [List.mem_map] at hp'
      obtain ⟨p, hpfil, rfl⟩ := hp'
      obtain ⟨hq2, hqid⟩ := List.mem_filter.mp hq
      have hqne : q.2 ≠ n := by
        intro he
        rw [he] at hqid
        simp [idEqb] at hqid
      refine ⟨hqne, (hiff q.2).mpr ⟨?_, hqne⟩⟩
      exact hcoh p (List.mem_of_mem_filter hpfil) q hq2
    · intro p hp hne
      have hname : p.1.name ≠ n.name := fun he =>
        hne (name_inj_of_nodup g hnd (List.mem_map.mpr ⟨p, hp, rfl⟩) hmem he)
      exact List.mem_map.mpr
        ⟨p, List.mem_filter.mpr ⟨hp, by simp [pyEqb, hname]⟩, rfl⟩

/-- Witness for C4 (amended): removing `b` from Scenario B's graph (an
instance-coherent graph) removes `b` and the edge `a →OK→ b`; applied at the
removed node itself, membership in the result is refuted by the theorem. -/
theorem C4_witness :
    ((nodes gB).map (·.name)).Nodup ∧ nB ∈ nodes gB ∧
      remove_node gB nB = .ok gBr ∧ (nB ∈ nodes gBr ↔ nB ∈ nodes gB ∧ nB ≠ nB) :=
  ⟨by decide, by decide, by decide,
    (C4_remove_node_cascade.2 gB gBr nB (by decide) (by decide) (by decide)
      (by decide)).1 nB⟩

/-! Claim C6. -/

/-- C6: the integrity report's `wrong_connections` holds exactly the
non-terminal nodes whose outgoing-label set contains neither `{OK, FAIL}` nor
`{OK, INCONCLUSIVE}` (extra labels permitted, terminal nodes exempt); on
Scenario A's graph the report is `([], [], [a2], true)` with `no_errors =
false`, and adding `a2 →FAIL→ a` makes `no_errors = true`. -/
theorem C6_wrong_connections :
    (∀ (g : JudgeManager) (r : JudgeGraphIntegrityReport),
      check_graph_integrity g = .ok r →
      ∀ x, x ∈ r.wrong_connections ↔
        (x ∈ nodes g ∧ x.isEnd = false ∧
          ¬((JudgeVerdict.OK ∈ ((dictGet? pyEqb g.graph x).getD []).map (·.1) ∧
             JudgeVerdict.FAIL ∈ ((dictGet? pyEqb g.graph x).getD []).map (·.1)) ∨
            (JudgeVerdict.OK ∈ ((dictGet? pyEqb g.graph x).getD []).map (·.1) ∧
             JudgeVerdict.INCONCLUSIVE ∈ ((dictGet? pyEqb g.graph x).getD []).map (·.1))))) ∧
    (check_graph_integrity gA = .ok ⟨[], [], [nA2], true⟩ ∧
     (check_graph_integrity gA).map no_errors = .ok false ∧
     (Except.bind (add_connection gA nA2 nA .FAIL) check_graph_integrity).map no_errors
       = .ok true) := by
  refine ⟨?_, by decide, by decide, by decide⟩
  intro g r h
  simp only [check_graph_integrity] at h
  split at h
  · exact absurd h (by simp)
  · split at h
    · exact absurd h (by simp)
    · simp only [Except.ok.injEq] at h
      subst h
      intro x
      rw [List.mem_filter]
      have hpred : ∀ (ks : List JudgeVerdict) (b : Bool),
          ((!((ks.contains JudgeVerdict.OK && ks.contains JudgeVerdict.FAIL) ||
              (ks.contains JudgeVerdict.OK && ks.contains JudgeVerdict.INCONCLUSIVE) ||
              b)) = true) ↔
            (b = false ∧ ¬((JudgeVerdict.OK ∈ ks ∧ JudgeVerdict.FAIL ∈ ks) ∨
              (JudgeVerdict.OK ∈ ks ∧ JudgeVerdict.INCONCLUSIVE ∈ ks))) := by
        intro ks b
        simp [not_or]
        tauto
      rw [hpred (((dictGet? pyEqb g.graph x).getD []).map (·.1)) x.isEnd]

/-- Witness for C6: the characterization applied on Scenario A's graph at node
`a2`, whose only outgoing label is `OK`. -/
theorem C6_witness :
    check_graph_integrity gA = .ok ⟨[], [], [nA2], true⟩ ∧
      (nA2 ∈ ([nA2] : List JudgeNode) ↔
        (nA2 ∈ nodes gA ∧ nA2.isEnd = false ∧
          ¬((JudgeVerdict.OK ∈ ((dictGet? pyEqb gA.graph nA2).getD []).map (·.1) ∧
             JudgeVerdict.FAIL ∈ ((dictGet? pyEqb gA.graph nA2).getD []).map (·.1)) ∨
            (JudgeVerdict.OK ∈ ((dictGet? pyEqb gA.graph nA2).getD []).map (·.1) ∧
             JudgeVerdict.INCONCLUSIVE ∈
               ((dictGet? pyEqb gA.graph nA2).getD []).map (·.1))))) :=
  ⟨by decide, C6_wrong_connections.1 gA ⟨[], [], [nA2], true⟩ (by decide) nA2⟩

/-! Matrix lemmas for the Floyd–Warshall loops. -/

theorem dims_initMat (g : JudgeManager) : Dims (initMat g) (nodes g).length := by
  constructor
  · simp [initMat]
  · intro r hr
    simp only [initMat, List.mem_map] at hr
    obtain ⟨a, _, rfl⟩ := hr
    simp

theorem getD_getElem? {α : Type} (l : List α) (i : Nat) (d : α) :
    l.getD i d = (l[i]?).getD d := by
  rw [show l.getD i d = (l.get? i).getD d from rfl, List.get?_eq_getElem?]

theorem matGet_eq {m : List (List Bool)} {i j : Nat} :
    matGet m i j = (((m[i]?).getD [])[j]?).getD false := by
  rw [matGet, getD_getElem?, getD_getElem?]

theorem matGet_initMat (g : JudgeManager) (i j : Nat) :
    matGet (initMat g) i j = initIdx g i j := by
  rw [matGet_eq]
  rcases hi : (nodes g)[i]? with _ | a
  · have hlen : (nodes g).length ≤ i := List.getElem?_eq_none_iff.mp hi
    have hrow : (initMat g)[i]? = none :=
      List.getElem?_eq_none_iff.mpr (by simpa [initMat] using hlen)
    rw [hrow]
    simp [initIdx, hi]
  · have hrow : (initMat g)[i]? =
        some ((nodes g).map (fun b => valuesContain g a b || idEqb a b)) := by
      simp only [initMat]
      rw [List.getElem?_map, hi]
      rfl
    rw [hrow]
    rcases hj : (nodes g)[j]? with _ | b
    · have hlen : (nodes g).length ≤ j := List.getElem?_eq_none_iff.mp hj
      have hcell : ((nodes g).map (fun b => valuesContain g a b || idEqb a b))[j]? = none :=
        List.getElem?_eq_none_iff.mpr (by simpa using hlen)
      show ((((nodes g).map fun b => valuesContain g a b || idEqb a b)[j]?).getD false)
        = initIdx g i j
      rw [hcell]
      simp [initIdx, hi, hj]
    · show ((((nodes g).map fun b => valuesContain g a b || idEqb a b)[j]?).getD false)
        = initIdx g i j
      rw [List.getElem?_map, hj]
      simp [initIdx, hi, hj]

theorem dims_matSet (m : List (List Bool)) (n i j : Nat) (b : Bool)
    (hd : Dims m n) (hi : i < n) : Dims (matSet m i j b) n := by
  obtain ⟨hl, hr⟩ := hd
  refine ⟨by simpa [matSet] using hl, ?_⟩
  intro r hrm
  simp only [matSet] at hrm
  rcases List.mem_or_eq_of_mem_set hrm with h | h
  · exact hr r h
  · subst h
    rw [List.length_set]
    rcases hrow : m[i]? with _ | row
    · exact absurd (List.getElem?_eq_none_iff.mp hrow) (by omega)
    · have hgd : m.getD i [] = row := by
        rw [getD_getElem?, hrow]
        rfl
      rw [hgd]
      exact hr row (List.getElem?_mem hrow)

theorem matGet_matSet (m : List (List Bool)) (n i j : Nat) (b : Bool)
    (hd : Dims m n) (hi : i < n) (hj : j < n) :
    ∀ p q, matGet (matSet m i j b) p q =
      if p = i ∧ q = j then b else matGet m p q := by
  intro p q
  obtain ⟨hl, hr⟩ := hd
  have him : i < m.length := by omega
  rcases hrow : m[i]? with _ | row
  · exact absurd (List.getElem?_eq_none_iff.mp hrow) (by omega)
  have hgd : m.getD i [] = row := by
    rw [getD_getElem?, hrow]
    rfl
  have hrlen : row.length = n := hr row (List.getElem?_mem hrow)
  by_cases hp : p = i
  · subst hp
    have hset : (matSet m p j b)[p]? = some (row.set j b) := by
      simp only [matSet, hgd]
      exact List.getElem?_set_eq him
    by_cases hq : q = j
    · subst hq
      have hcell : (row.set q b)[q]? = some b :=
        List.getElem?_set_eq (by omega)
      rw [matGet_eq, hset]
      show ((row.set q b)[q]?).getD false = _
      rw [hcell]
      simp
    · rw [matGet_eq, hset]
      show ((row.set j b)[q]?).getD false = _
      rw [List.getElem?_set_ne (fun he => hq he.symm)]
      rw [if_neg (by simp [hq]), matGet_eq, hrow]
      rfl
  · have hset : (matSet m i j b)[p]? = m[p]? := by
      simp only [matSet]
      exact List.getElem?_set_ne (fun he => hp he.symm)
    rw [matGet_eq, hset, if_neg (by simp [hp]), matGet_eq]

theorem fwRowAux (n k i : Nat) (hi : i < n) (js : List Nat) :
    ∀ (m : List (List Bool)), Dims m n → (∀ j ∈ js, j < n) → js.Nodup →
      Dims (js.foldl
        (fun m j => matSet m i j (matGet m i j || (matGet m i k && matGet m k j))) m) n ∧
      ∀ p q,
        matGet (js.foldl
          (fun m j => matSet m i j (matGet m i j || (matGet m i k && matGet m k j))) m) p q =
          if p = i ∧ q ∈ js then matGet m i q || (matGet m i k && matGet m k q)
          else matGet m p q := by
  induction js with
  | nil =>
    intro m hd _ _
    exact ⟨hd, by intro p q; simp⟩
  | cons j0 js ih =>
    intro m hd hb hnd
    have hj0 : j0 < n := hb j0 (by simp)
    have hne0 : j0 ∉ js := (List.nodup_cons.mp hnd).1
    simp only [List.foldl_cons]
    have hd' : Dims (matSet m i j0 (matGet m i j0 || (matGet m i k && matGet m k j0))) n :=
      dims_matSet m n i j0 _ hd hi
    have hset := matGet_matSet m n i j0
      (matGet m i j0 || (matGet m i k && matGet m k j0)) hd hi hj0
    have hik : matGet (matSet m i j0 (matGet m i j0 || (matGet m i k && matGet m k j0))) i k
        = matGet m i k := by
      rw [hset]
      by_cases hk : k = j0
      · subst hk
        rw [if_pos ⟨rfl, rfl⟩]
        cases hmik : matGet m i k <;> simp [hmik]
      · rw [if_neg (by simp [hk])]
    have hkrow : ∀ q,
        matGet (matSet m i j0 (matGet m i j0 || (matGet m i k && matGet m k j0))) k q
          = matGet m k q := by
      intro q
      rw [hset]
      by_cases hki : k = i
      · subst hki
        by_cases hqj : q = j0
        · subst hqj
          rw [if_pos ⟨rfl, rfl⟩]
          cases hx : matGet m k q <;> simp [hx]
        · rw [if_neg (by simp [hqj])]
      · rw [if_neg (by simp [hki])]
    obtain ⟨hdr, hvals⟩ := ih _ hd' (fun j hj => hb j (by simp [hj]))
      (List.nodup_cons.mp hnd).2
    refine ⟨hdr, ?_⟩
    intro p q
    rw [hvals p q]
    by_cases hp : p = i
    · subst hp
      by_cases hqs : q ∈ js
      · have hq0 : q ≠ j0 := fun he => hne0 (he ▸ hqs)
        rw [if_pos ⟨rfl, hqs⟩, if_pos ⟨rfl, by simp [hqs]⟩, hik, hkrow q,
          hset p q, if_neg (by simp [hq0])]
      · rw [if_neg (by simp [hqs])]
        by_cases hq0 : q = j0
        · subst hq0
          rw [hset p q, if_pos ⟨rfl, rfl⟩, if_pos ⟨rfl, by simp⟩]
        · rw [hset p q, if_neg (by simp [hq0]), if_neg (by simp [hqs, hq0])]
    · rw [if_neg (by simp [hp]), if_neg (by simp [hp]), hset p q,
        if_neg (by simp [hp])]

theorem fwRow_spec (n k i : Nat) (hi : i < n) (m : List (List Bool)) (hd : Dims m n) :
    Dims (fwRow n k i m) n ∧
    ∀ p q, matGet (fwRow n k i m) p q =
      if p = i ∧ q < n then matGet m i q || (matGet m i k && matGet m k q)
      else matGet m p q := by
  obtain ⟨hdr, hvals⟩ := fwRowAux n k i hi (List.range n) m hd
    (fun j hj => List.mem_range.mp hj) (List.nodup_range n)
  refine ⟨hdr, ?_⟩
  intro p q
  rw [fwRow, hvals p q]
  simp only [List.mem_range]

theorem fwPassAux (n k : Nat) (is : List Nat) :
    ∀ (m : List (List Bool)), Dims m n → (∀ i ∈ is, i < n) → is.Nodup →
      Dims (is.foldl (fun m i => fwRow n k i m) m) n ∧
      ∀ p q, matGet (is.foldl (fun m i => fwRow n k i m) m) p q =
        if p ∈ is ∧ q < n then matGet m p q || (matGet m p k && matGet m k q)
        else matGet m p q := by
  induction is with
  | nil =>
    intro m hd _ _
    exact ⟨hd, by intro p q; simp⟩
  | cons i0 is ih =>
    intro m hd hb hnd
    have hi0 : i0 < n := hb i0 (by simp)
    have hne0 : i0 ∉ is := (List.nodup_cons.mp hnd).1
    simp only [List.foldl_cons]
    obtain ⟨hd', hrow⟩ := fwRow_spec n k i0 hi0 m hd
    have hkrow : ∀ q, matGet (fwRow n k i0 m) k q = matGet m k q := by
      intro q
      rw [hrow k q]
      by_cases hki : k = i0
      · subst hki
        by_cases hq : q < n
        · rw [if_pos ⟨rfl, hq⟩]
          cases hx : matGet m k q <;> simp [hx]
        · rw [if_neg (by simp [hq])]
      · rw [if_neg (by simp [hki])]
    obtain ⟨hdr, hvals⟩ := ih _ hd' (fun j hj => hb j (by simp [hj]))
      (List.nodup_cons.mp hnd).2
    refine ⟨hdr, ?_⟩
    intro p q
    rw [hvals p q]
    by_cases hp : p ∈ is
    · have hp0 : p ≠ i0 := fun he => hne0 (he ▸ hp)
      by_cases hq : q < n
      · rw [if_pos ⟨hp, hq⟩, if_pos ⟨by simp [hp], hq⟩, hkrow q,
          hrow p q, if_neg (by simp [hp0]), hrow p k, if_neg (by simp [hp0])]
      · rw [if_neg (by simp [hq]), if_neg (by simp [hq]), hrow p q,
          if_neg (by simp [hp0])]
    · rw [if_neg (by simp [hp])]
      by_cases hp0 : p = i0
      · subst hp0
        by_cases hq : q < n
        · rw [hrow p q, if_pos ⟨rfl, hq⟩, if_pos ⟨by simp, hq⟩]
        · rw [hrow p q, if_neg (by simp [hq]), if_neg (by simp [hq])]
      · rw [hrow p q, if_neg (by simp [hp0]), if_neg (by simp [hp, hp0])]

theorem fwPass_spec (n k : Nat) (m : List (List Bool)) (hd : Dims m n) :
    Dims (fwPass n k m) n ∧
    ∀ p q, matGet (fwPass n k m) p q =
      if p < n ∧ q < n then matGet m p q || (matGet m p k && matGet m k q)
      else matGet m p q := by
  obtain ⟨hdr, hvals⟩ := fwPassAux n k (List.range n) m hd
    (fun j hj => List.mem_range.mp hj) (List.nodup_range n)
  refine ⟨hdr, ?_⟩
  intro p q
  rw [fwPass, hvals p q]
  simp only [List.mem_range]

theorem fwFun_congr (A B : Nat → Nat → Bool) (n : Nat) (h : ∀ p q, A p q = B p q) :
    ∀ K i j, fwFun A n K i j = fwFun B n K i j
  | 0, i, j => h i j
  | K + 1, i, j => by
    simp only [fwFun]
    rw [fwFun_congr A B n h K i j, fwFun_congr A B n h K i K, fwFun_congr A B n h K K j]

theorem fwRun_spec (n : Nat) (m0 : List (List Bool)) (hd : Dims m0 n) :
    ∀ K, Dims ((List.range K).foldl (fun m k => fwPass n k m) m0) n ∧
      ∀ p q, matGet ((List.range K).foldl (fun m k => fwPass n k m) m0) p q =
        fwFun (fun p q => matGet m0 p q) n K p q := by
  intro K
  induction K with
  | zero => exact ⟨by simpa using hd, by intro p q; simp [fwFun]⟩
  | succ K ih =>
    obtain ⟨hdK, hK⟩ := ih
    have hfold : (List.range (K + 1)).foldl (fun m k => fwPass n k m) m0 =
        fwPass n K ((List.range K).foldl (fun m k => fwPass n k m) m0) := by
      rw [List.range_succ, List.foldl_append]
      rfl
    obtain ⟨hdp, hp⟩ := fwPass_spec n K _ hdK
    rw [hfold]
    refine ⟨hdp, ?_⟩
    intro p q
    rw [hp p q]
    by_cases hpq : p < n ∧ q < n
    · rw [if_pos hpq, hK p q, hK p K, hK K q]
      simp only [fwFun]
      rw [if_pos hpq]
    · rw [if_neg hpq, hK p q]
      simp only [fwFun]
      rw [if_neg hpq]

theorem matGet_fwMatrix (g : JudgeManager) (p q : Nat) :
    matGet (fwMatrix g) p q =
      fwFun (initIdx g) (nodes g).length (nodes g).length p q := by
  have h := (fwRun_spec (nodes g).length (initMat g) (dims_initMat g)
    (nodes g).length).2 p q
  rw [fwMatrix, h]
  exact fwFun_congr _ _ (nodes g).length (matGet_initMat g) (nodes g).length p q

/-! Chains, reflexive-transitive closure, and correctness of the iteration. -/

theorem chainR_append {α : Type} (R : α → α → Prop) :
    ∀ (l1 : List α) (a c b : α) (l2 : List α),
      chainR R a l1 c → chainR R c l2 b → chainR R a (l1 ++ c :: l2) b
  | [], _, _, _, _, h1, h2 => ⟨h1, h2⟩
  | x :: xs, a, c, b, l2, h1, h2 =>
    ⟨h1.1, chainR_append R xs x c b l2 h1.2 h2⟩

theorem chainR_split_first {α : Type} (R : α → α → Prop) (c : α) :
    ∀ (l : List α) (a b : α), chainR R a l b → c ∈ l →
      ∃ l1, chainR R a l1 c ∧ c ∉ l1 ∧ ∀ x ∈ l1, x ∈ l
  | [], c', b, _, hc => absurd hc (List.not_mem_nil c)
  | x :: xs, a, b, h, hc => by
    obtain ⟨hax, hxs⟩ := h
    by_cases hx : x = c
    · subst hx
      exact ⟨[], hax, by simp, by simp⟩
    · have hcm : c ∈ xs := by
        rcases List.mem_cons.mp hc with he | he
        · exact absurd he.symm hx
        · exact he
      obtain ⟨l1, hl1, hnc, hsub⟩ := chainR_split_first R c xs x b hxs hcm
      refine ⟨x :: l1, ⟨hax, hl1⟩, ?_, ?_⟩
      · intro hmem
        rcases List.mem_cons.mp hmem with he | he
        · exact hx he.symm
        · exact hnc he
      · intro y hy
        rcases List.mem_cons.mp hy with he | he
        · exact he ▸ List.mem_cons_self x xs
        · exact List.mem_cons_of_mem x (hsub y he)

theorem chainR_split_last {α : Type} (R : α → α → Prop) (c : α) :
    ∀ (l : List α) (a b : α), chainR R a l b → c ∈ l →
      ∃ l2, chainR R c l2 b ∧ c ∉ l2 ∧ ∀ x ∈ l2, x ∈ l
  | [], c', b, _, hc => absurd hc (List.not_mem_nil c)
  | x :: xs, a, b, h, hc => by
    obtain ⟨hax, hxs⟩ := h
    by_cases hcm : c ∈ xs
    · obtain ⟨l2, hl2, hnc, hsub⟩ := chainR_split_last R c xs x b hxs hcm
      exact ⟨l2, hl2, hnc, fun y hy => List.mem_cons_of_mem x (hsub y hy)⟩
    · have hx : x = c := by
        rcases List.mem_cons.mp hc with he | he
        · exact he.symm
        · exact absurd he hcm
      subst hx
      exact ⟨xs, hxs, hcm, fun y hy => List.mem_cons_of_mem x hy⟩

theorem rtg_iff_chainR {α : Type} (R : α → α → Prop) (a b : α) :
    Relation.ReflTransGen R a b ↔ (a = b ∨ ∃ l, chainR R a l b) := by
  constructor
  · intro h
    induction h with
    | refl => exact Or.inl rfl
    | @tail x y _ hxy ih =>
      rcases ih with rfl | ⟨l, hl⟩
      · exact Or.inr ⟨[], hxy⟩
      · exact Or.inr ⟨l ++ [x], chainR_append R l a x y [] hl hxy⟩
  · rintro (rfl | ⟨l, hl⟩)
    · exact Relation.ReflTransGen.refl
    · induction l generalizing a with
      | nil => exact Relation.ReflTransGen.single hl
      | cons x xs ih => exact Relation.ReflTransGen.head hl.1 (ih x hl.2)

theorem fwFun_iff (g : JudgeManager) (hnd : ((nodes g).map (·.name)).Nodup) :
    ∀ K, K ≤ (nodes g).length → ∀ i j, i < (nodes g).length → j < (nodes g).length →
      (fwFun (initIdx g) (nodes g).length K i j = true ↔
        (i = j ∨ ∃ l, (∀ x ∈ l, x < K) ∧
          chainR (fun a b => adjIdx g a b = true) i l j)) := by
  have hnodes : (nodes g).Nodup := List.Nodup.of_map _ hnd
  intro K
  induction K with
  | zero =>
    intro _ i j hi hj
    obtain ⟨a, ha⟩ : ∃ a, (nodes g)[i]? = some a := by
      rcases h : (nodes g)[i]? with _ | a
      · exact absurd (List.getElem?_eq_none_iff.mp h) (by omega)
      · exact ⟨a, rfl⟩
    obtain ⟨b, hb⟩ : ∃ b, (nodes g)[j]? = some b := by
      rcases h : (nodes g)[j]? with _ | b
      · exact absurd (List.getElem?_eq_none_iff.mp h) (by omega)
      · exact ⟨b, rfl⟩
    constructor
    · intro h
      simp only [fwFun, initIdx, ha, hb] at h
      rw [Bool.or_eq_true] at h
      rcases h with hadj | hid
      · refine Or.inr ⟨[], by simp, ?_⟩
        show adjIdx g i j = true
        simp [adjIdx, ha, hb, hadj]
      · have hab : a = b := by simpa [idEqb] using hid
        subst hab
        exact Or.inl (List.getElem?_inj (by omega) hnodes (ha.trans hb.symm))
    · rintro (rfl | ⟨l, hlb, hlc⟩)
      · simp [fwFun, initIdx, ha, idEqb]
      · have hl : l = [] := by
          cases l with
          | nil => rfl
          | cons x xs => exact absurd (hlb x (by simp)) (by omega)
        subst hl
        have hadj : valuesContain g a b = true := by
          have := hlc
          simp only [chainR, adjIdx, ha, hb] at this
          exact this
        simp [fwFun, initIdx, ha, hb, hadj]
  | succ K ih =>
    intro hK i j hi hj
    have hKn : K < (nodes g).length := by omega
    have hKle : K ≤ (nodes g).length := by omega
    constructor
    · intro h
      simp only [fwFun] at h
      rw [if_pos ⟨hi, hj⟩, Bool.or_eq_true] at h
      rcases h with h1 | h2
      · rcases (ih hKle i j hi hj).mp h1 with rfl | ⟨l, hb, hc⟩
        · exact Or.inl rfl
        · exact Or.inr ⟨l, fun x hx => Nat.lt_succ_of_lt (hb x hx), hc⟩
      · rw [Bool.and_eq_true] at h2
        rcases (ih hKle i K hi hKn).mp h2.1 with he1 | ⟨l1, hb1, hc1⟩
        · rcases (ih hKle K j hKn hj).mp h2.2 with he2 | ⟨l2, hb2, hc2⟩
          · exact Or.inl (he1.trans he2)
          · subst he1
            exact Or.inr ⟨l2, fun x hx => Nat.lt_succ_of_lt (hb2 x hx), hc2⟩
        · rcases (ih hKle K j hKn hj).mp h2.2 with he2 | ⟨l2, hb2, hc2⟩
          · subst he2
            exact Or.inr ⟨l1, fun x hx => Nat.lt_succ_of_lt (hb1 x hx), hc1⟩
          · refine Or.inr ⟨l1 ++ K :: l2, ?_,
              chainR_append _ l1 i K j l2 hc1 hc2⟩
            intro x hx
            rcases List.mem_append.mp hx with hx1 | hx2
            · exact Nat.lt_succ_of_lt (hb1 x hx1)
            · rcases List.mem_cons.mp hx2 with rfl | hx3
              · omega
              · exact Nat.lt_succ_of_lt (hb2 x hx3)
    · intro h
      simp only [fwFun]
      rw [if_pos ⟨hi, hj⟩, Bool.or_eq_true]
      rcases h with rfl | ⟨l, hb, hc⟩
      · exact Or.inl ((ih hKle i i hi hi).mpr (Or.inl rfl))
      · by_cases hKl : K ∈ l
        · obtain ⟨l1, hc1, hnc1, hsub1⟩ := chainR_split_first _ K l i j hc hKl
          obtain ⟨l2, hc2, hnc2, hsub2⟩ := chainR_split_last _ K l i j hc hKl
          have h1 : fwFun (initIdx g) (nodes g).length K i K = true := by
            refine (ih hKle i K hi hKn).mpr (Or.inr ⟨l1, ?_, hc1⟩)
            intro x hx
            have hx1 := hb x (hsub1 x hx)
            have hx2 : x ≠ K := fun he => hnc1 (he ▸ hx)
            omega
          have h2 : fwFun (initIdx g) (nodes g).length K K j = true := by
            refine (ih hKle K j hKn hj).mpr (Or.inr ⟨l2, ?_, hc2⟩)
            intro x hx
            have hx1 := hb x (hsub2 x hx)
            have hx2 : x ≠ K := fun he => hnc2 (he ▸ hx)
            omega
          exact Or.inr (by rw [Bool.and_eq_true]; exact ⟨h1, h2⟩)
        · refine Or.inl ((ih hKle i j hi hj).mpr (Or.inr ⟨l, ?_, hc⟩))
          intro x hx
          have hx1 := hb x hx
          have hx2 : x ≠ K := fun he => hKl (he ▸ hx)
          omega

/-! Correspondence between matrix indices and node names. -/

theorem adjIdx_bounds (g : JudgeManager) {i j : Nat} (h : adjIdx g i j = true) :
    ∃ a b, (nodes g)[i]? = some a ∧ (nodes g)[j]? = some b := by
  rcases hi : (nodes g)[i]? with _ | a
  · simp [adjIdx, hi] at h
  · rcases hj : (nodes g)[j]? with _ | b
    · simp [adjIdx, hi, hj] at h
    · exact ⟨a, b, rfl, rfl⟩

theorem lt_of_getElem?_nodes {g : JudgeManager} {i : Nat} {a : JudgeNode}
    (h : (nodes g)[i]? = some a) : i < (nodes g).length := by
  by_contra hcon
  rw [List.getElem?_eq_none_iff.mpr (by omega)] at h
  cases h

theorem edge_idx_iff (g : JudgeManager) (hnd : ((nodes g).map (·.name)).Nodup)
    {i j : Nat} {a b : JudgeNode}
    (hi : (nodes g)[i]? = some a) (hj : (nodes g)[j]? = some b) :
    (adjIdx g i j = true ↔ specEdge g a.name b.name) := by
  have hmem : a ∈ nodes g := List.getElem?_mem hi
  obtain ⟨p, hp, hpa⟩ := List.mem_map.mp hmem
  have hlook : dictGet? pyEqb g.graph a = some p.2 := by
    apply dictGet?_pyEqb_of_mem g.graph a p.2 (nodup_names_graph g hnd)
    rw [← hpa]
    simpa using hp
  simp only [adjIdx, hi, hj, valuesContain, hlook, Option.getD_some]
  constructor
  · intro h
    obtain ⟨q, hq, hqb⟩ := List.any_eq_true.mp h
    exact ⟨p, hp, by rw [hpa], q, hq, by simpa [pyEqb] using hqb⟩
  · rintro ⟨p', hp', hpname, q, hq, hqname⟩
    have hlook' : dictGet? pyEqb g.graph a = some p'.2 := by
      rw [dictGet?_pyEqb_congr g.graph a p'.1 (by rw [hpname])]
      exact dictGet?_pyEqb_of_mem g.graph p'.1 p'.2 (nodup_names_graph g hnd)
        (by simpa using hp')
    have hval : p.2 = p'.2 := by
      rw [hlook] at hlook'
      exact Option.some.inj hlook'
    refine List.any_eq_true.mpr ⟨q, ?_, by simp [pyEqb, hqname]⟩
    rw [hval]
    exact hq

theorem chain_source_entry (g : JudgeManager) :
    ∀ (l : List String) (x y : String), chainR (specEdge g) x l y →
      ∃ p ∈ g.graph, p.1.name = x
  | [], x, y, h => by
    obtain ⟨p, hp, hx, _⟩ := h
    exact ⟨p, hp, hx⟩
  | z :: zs, x, y, h => by
    obtain ⟨p, hp, hx, _⟩ := h.1
    exact ⟨p, hp, hx⟩

theorem chain_idx_to_name (g : JudgeManager) (hnd : ((nodes g).map (·.name)).Nodup) :
    ∀ (l : List Nat) (i : Nat) (a : JudgeNode) (j : Nat) (b : JudgeNode),
      (nodes g)[i]? = some a → (nodes g)[j]? = some b →
      chainR (fun p q => adjIdx g p q = true) i l j →
      ∃ ln, chainR (specEdge g) a.name ln b.name
  | [], i, a, j, b, hi, hj, h => ⟨[], (edge_idx_iff g hnd hi hj).mp h⟩
  | x :: xs, i, a, j, b, hi, hj, h => by
    obtain ⟨hax, hxs⟩ := h
    obtain ⟨a', cx, _, hx⟩ := adjIdx_bounds g hax
    obtain ⟨ln, hln⟩ := chain_idx_to_name g hnd xs x cx j b hx hj hxs
    exact ⟨cx.name :: ln, (edge_idx_iff g hnd hi hx).mp hax, hln⟩

theorem chain_name_to_idx (g : JudgeManager) (hnd : ((nodes g).map (·.name)).Nodup)
    (j : Nat) (b : JudgeNode) (hj : (nodes g)[j]? = some b) :
    ∀ (ln : List String) (i : Nat) (a : JudgeNode),
      (nodes g)[i]? = some a →
      chainR (specEdge g) a.name ln b.name →
      ∃ l, chainR (fun p q => adjIdx g p q = true) i l j
  | [], i, a, hi, h => ⟨[], (edge_idx_iff g hnd hi hj).mpr h⟩
  | x :: xs, i, a, hi, h => by
    obtain ⟨hstep, hchain⟩ := h
    obtain ⟨p, hp, hpname⟩ := chain_source_entry g xs x b.name hchain
    have hpm : p.1 ∈ nodes g := List.mem_map.mpr ⟨p, hp, rfl⟩
    obtain ⟨m, hm⟩ := List.mem_iff_getElem?.mp hpm
    have hadj : adjIdx g i m = true := by
      refine (edge_idx_iff g hnd hi hm).mpr ?_
      rw [hpname]
      exact hstep
    obtain ⟨l, hl⟩ := chain_name_to_idx g hnd j b hj xs m p.1 hm
      (by rw [hpname]; exact hchain)
    exact ⟨m :: l, hadj, hl⟩

theorem chain_idx_lt (g : JudgeManager) :
    ∀ (l : List Nat) (i j : Nat),
      chainR (fun p q => adjIdx g p q = true) i l j →
      ∀ x ∈ l, x < (nodes g).length
  | [], _, _, _, x, hx => absurd hx (List.not_mem_nil x)
  | z :: zs, i, j, h, x, hx => by
    rcases List.mem_cons.mp hx with rfl | hx2
    · obtain ⟨_, b, _, hb⟩ := adjIdx_bounds g h.1
      exact lt_of_getElem?_nodes hb
    · exact chain_idx_lt g zs z j h.2 x hx2

theorem fw_keys (g : JudgeManager) : (_floyd_warshall g).map (·.1) = nodes g := by
  simp only [_floyd_warshall]
  rw [List.map_map]
  exact List.enum_map_snd _

theorem fw_lookup (g : JudgeManager) (hnd : ((nodes g).map (·.name)).Nodup)
    {i : Nat} {nd : JudgeNode} (hi : (nodes g)[i]? = some nd) :
    dictGet? pyEqb (_floyd_warshall g) nd =
      some (((nodes g).enum.filter (fun q => matGet (fwMatrix g) i q.1)).map (·.2)) := by
  apply dictGet?_pyEqb_of_mem
  · have h1 : ((_floyd_warshall g).map (fun p => p.1.name)) = (nodes g).map (·.name) := by
      rw [show (fun (p : JudgeNode × List JudgeNode) => p.1.name) =
        ((fun n : JudgeNode => n.name) ∘ (fun p : JudgeNode × List JudgeNode => p.1))
        from rfl, ← List.map_map, fw_keys]
    rw [h1]
    exact hnd
  · simp only [_floyd_warshall]
    refine List.mem_map.mpr ⟨(i, nd), ?_, rfl⟩
    rw [List.mem_enum_iff_getElem?]
    exact hi

theorem fw_row_mem (g : JudgeManager) (i : Nat) (x : JudgeNode) :
    x ∈ (((nodes g).enum.filter (fun q => matGet (fwMatrix g) i q.1)).map (·.2)) ↔
      ∃ j, (nodes g)[j]? = some x ∧ matGet (fwMatrix g) i j = true := by
  constructor
  · intro hx
    obtain ⟨q, hq, rfl⟩ := List.mem_map.mp hx
    obtain ⟨hqe, hqm⟩ := List.mem_filter.mp hq
    exact ⟨q.1, List.mem_enum_iff_getElem?.mp hqe, by simpa using hqm⟩
  · rintro ⟨j, hj, hm⟩
    exact List.mem_map.mpr ⟨(j, x), List.mem_filter.mpr
      ⟨List.mem_enum_iff_getElem?.mpr hj, by simpa using hm⟩, rfl⟩

/-! Claim C1. -/

/-- C1: for every decision graph (well-formed: distinct node names), the
reachability dict computed by `_floyd_warshall` assigns to every registered
node exactly the registered nodes reachable from it (including itself) via
directed edges ignoring verdict labels — reachability in the spec's sense,
the reflexive-transitive closure of the one-edge-step relation, which is what
brute-force BFS/DFS computes. -/
theorem C1_floyd_warshall_reachability (g : JudgeManager)
    (hnd : ((nodes g).map (·.name)).Nodup) (n : JudgeNode) (hn : n ∈ nodes g) :
    dictContains pyEqb (_floyd_warshall g) n = true ∧
    (∀ x ∈ (dictGet? pyEqb (_floyd_warshall g) n).getD [], x ∈ nodes g) ∧
    (∀ m ∈ nodes g,
      (m ∈ (dictGet? pyEqb (_floyd_warshall g) n).getD [] ↔
        specReachable g n.name m.name)) := by
  obtain ⟨i, hi⟩ := List.mem_iff_getElem?.mp hn
  have hlook := fw_lookup g hnd hi
  have hilt : i < (nodes g).length := lt_of_getElem?_nodes hi
  refine ⟨by rw [dictContains, hlook]; rfl, ?_, ?_⟩
  · intro x hx
    rw [hlook] at hx
    obtain ⟨j, hj, _⟩ := (fw_row_mem g i x).mp (by simpa using hx)
    exact List.getElem?_mem hj
  · intro m hm
    obtain ⟨j, hj⟩ := List.mem_iff_getElem?.mp hm
    have hjlt : j < (nodes g).length := lt_of_getElem?_nodes hj
    rw [hlook, Option.getD_some]
    constructor
    · intro hmem
      obtain ⟨j', hj', hmat⟩ := (fw_row_mem g i m).mp hmem
      have hj'lt : j' < (nodes g).length := lt_of_getElem?_nodes hj'
      rw [matGet_fwMatrix] at hmat
      rcases (fwFun_iff g hnd (nodes g).length le_rfl i j' hilt hj'lt).mp hmat with
        he | ⟨l, _, hc⟩
      · subst he
        rw [hi] at hj'
        exact (Option.some.inj hj') ▸ Relation.ReflTransGen.refl
      · obtain ⟨ln, hln⟩ := chain_idx_to_name g hnd l i n j' m hi hj' hc
        exact (rtg_iff_chainR (specEdge g) n.name m.name).mpr (Or.inr ⟨ln, hln⟩)
    · intro hreach
      rcases (rtg_iff_chainR (specEdge g) n.name m.name).mp hreach with
        hne | ⟨ln, hln⟩
      · have hnm : n = m := name_inj_of_nodup g hnd hn hm hne
        subst hnm
        refine (fw_row_mem g i n).mpr ⟨i, hi, ?_⟩
        rw [matGet_fwMatrix]
        exact (fwFun_iff g hnd (nodes g).length le_rfl i i hilt hilt).mpr (Or.inl rfl)
      · obtain ⟨l, hl⟩ := chain_name_to_idx g hnd j m hj ln i n hi hln
        refine (fw_row_mem g i m).mpr ⟨j, hj, ?_⟩
        rw [matGet_fwMatrix]
        exact (fwFun_iff g hnd (nodes g).length le_rfl i j hilt hjlt).mpr
          (Or.inr ⟨l, chain_idx_lt g l i j hl, hl⟩)

/-- Witness for C1: on Scenario B's graph, the Floyd–Warshall reach set of `a`
is characterized by spec reachability; in particular `END` belongs to it iff
`END` is reachable from `a`. -/
theorem C1_witness :
    ((nodes gB).map (·.name)).Nodup ∧ nA ∈ nodes gB ∧ nEnd ∈ nodes gB ∧
      (nEnd ∈ (dictGet? pyEqb (_floyd_warshall gB) nA).getD [] ↔
        specReachable gB nA.name nEnd.name) :=
  ⟨by decide, by decide, by decide,
    (C1_floyd_warshall_reachability gB (by decide) nA (by decide)).2.2 nEnd (by decide)⟩

end BaCa2
